import Mathlib

/-!
Verification of the DECS_HTTP_SERVER key-value service core.

The embedded code is the C++ `LRUCache` class (a `std::list` of
key/value pairs ordered most-recently-used first, plus a lookup map
from key to list node), the PUT / GET HTTP handlers that coordinate
the cache with the PostgreSQL backing store, and the `/stats` handler.

Modelling conventions:
- the `std::list<std::pair<string,string>>` becomes a
  `List (String × String)` whose head is the most-recently-used entry;
- the `std::unordered_map<string, iterator>` becomes the list of its
  keys (`map : List String`): an iterator stored in the map designates
  the unique list node carrying that key, so the map's information
  content is exactly its key set, updated at the same program points
  as the C++ map;
- `splice(begin(), cache, it)` (move node `it` to the front) becomes
  removing the entry whose key matches and re-consing it at the head;
- the PostgreSQL `kv` table (key TEXT PRIMARY KEY, value TEXT) becomes
  an association list with at most one entry per key; a backing-store
  operation that may throw (`pqxx` raises on connection/commit
  failure) is modelled by an explicit outcome parameter: on failure
  the handler unwinds before any statement after the `db.put` call,
  per C++ exception semantics;
- the `double` arithmetic of the `/stats` handler is modelled over
  `ℚ`: the claimed values (0, 50, 100) are exactly representable and
  exactly computed in binary floating point.
-/

/-- The LRU cache state: capacity, recency list (head = most recently
used), and the key set of the lookup index (`std::unordered_map`). -/
structure LRUCache where
  cap : Nat
  cache : List (String × String)
  map : List String
  deriving Repr, DecidableEq

namespace LRUCache

/-- `LRUCache(size_t capacity)`: both containers start empty. -/
def empty (capacity : Nat) : LRUCache :=
  { cap := capacity, cache := [], map := [] }

/-- `bool get(key, value&)`: look the key up in the map; on a miss
return false; on a hit splice the node to the front and return its
value. -/
def get (c : LRUCache) (key : String) : Option String × LRUCache :=
  if key ∈ c.map then
    match c.cache.find? (fun e => e.1 == key) with
    | some e => (some e.2, { c with cache := e :: c.cache.eraseP (fun e => e.1 == key) })
    | none => (none, c)
  else
    (none, c)

/-- `void put(key, value)`: if the key is in the map, overwrite the
node's value and splice it to the front; otherwise emplace a new node
at the front, record it in the map, and if the size now exceeds `cap`
pop the back node and erase its key from the map. -/
def put (c : LRUCache) (key value : String) : LRUCache :=
  if key ∈ c.map then
    { c with cache := (key, value) :: c.cache.eraseP (fun e => e.1 == key) }
  else
    let cache1 := (key, value) :: c.cache
    let map1 := key :: c.map
    if cache1.length > c.cap then
      { c with cache := cache1.dropLast,
               map := map1.erase (cache1.getLastD (key, value)).1 }
    else
      { c with cache := cache1, map := map1 }

/-- `void remove(key)`: if the key is in the map, erase its node from
the list and its entry from the map; otherwise do nothing. -/
def remove (c : LRUCache) (key : String) : LRUCache :=
  if key ∈ c.map then
    { c with cache := c.cache.eraseP (fun e => e.1 == key), map := c.map.erase key }
  else
    c

end LRUCache

/-- The keys held in the recency list, most-recently-used first. -/
def cacheKeys (c : LRUCache) : List String :=
  c.cache.map Prod.fst

/-- One client-visible cache operation. -/
inductive Op where
  | get (key : String)
  | put (key value : String)
  | remove (key : String)
  deriving Repr, DecidableEq

/-- Run one operation, keeping only the resulting state. -/
def applyOp (c : LRUCache) : Op → LRUCache
  | Op.get k => (c.get k).2
  | Op.put k v => c.put k v
  | Op.remove k => c.remove k

/-- Run a sequence of operations left to right. -/
def applyOps (c : LRUCache) (ops : List Op) : LRUCache :=
  ops.foldl applyOp c

/-- Run a sequence of `put`s left to right. -/
def applyPuts (c : LRUCache) (s : List (String × String)) : LRUCache :=
  s.foldl (fun c kv => c.put kv.1 kv.2) c

/-- Distinct keys of a most-recent-first access list, in order of
first appearance: the expected cache contents before truncation at
capacity. -/
def mruOrder : List String → List String
  | [] => []
  | k :: rest => k :: (mruOrder rest).erase k

-- ------------------- PostgreSQL DB wrapper --------------------

/-- The `kv` table: key TEXT PRIMARY KEY, so at most one row per key. -/
abbrev DB := List (String × String)

/-- `Database::get`: `SELECT value FROM kv WHERE key=$1`; empty result
means not found. -/
def DB.get (db : DB) (key : String) : Option String :=
  (List.find? (fun e => e.1 == key) db).map Prod.snd

/-- `Database::put`: `INSERT ... ON CONFLICT(key) DO UPDATE` (upsert:
the row for `key` now holds `value`, all other rows unchanged). -/
def DB.put (db : DB) (key value : String) : DB :=
  (key, value) :: List.eraseP (fun e => e.1 == key) db

/-- `Database::remove`: `DELETE FROM kv WHERE key=$1`. -/
def DB.remove (db : DB) (key : String) : DB :=
  List.filter (fun e => !(e.1 == key)) db

-- ------------------- Main server --------------------

/-- Whole-server state: the backing store table, the cache, and the
two atomic counters `cache_hits` / `cache_misses`.  `db_reads` is a
ghost counter marking each call into `Database::get`, used to state
that a cache hit performs no backing-store access. -/
structure ServerState where
  db : DB
  cache : LRUCache
  cache_hits : Nat
  cache_misses : Nat
  db_reads : Nat

/-- Server start-up state: empty table, `LRUCache cache(1000)`, and
zeroed counters. -/
def ServerState.init : ServerState :=
  { db := ([] : List (String × String)), cache := LRUCache.empty 1000,
    cache_hits := 0, cache_misses := 0, db_reads := 0 }

/-- Outcome of one backing-store write: `pqxx` either commits or
throws (connection or commit failure aborts the transaction, leaving
the table unchanged). -/
inductive DbOutcome where
  | ok
  | fail
  deriving Repr, DecidableEq

/-- Response of the PUT handler as seen by the caller: `"PUT OK"`, or
the propagated backing-store exception. -/
inductive PutResp where
  | ok
  | dbError
  deriving Repr, DecidableEq

/-- Response of the GET handler: `"CACHE HIT: v"`, `"DB HIT: v"`, or
404 `"Not found"`. -/
inductive GetResp where
  | cacheHit (v : String)
  | dbHit (v : String)
  | notFound
  deriving Repr, DecidableEq

/-- The `svr.Put` handler: `db.put(key, value); cache.put(key, value)`.
If `db.put` throws, the handler unwinds before `cache.put` runs, so
the cache (and, transactionally, the table) is untouched and the
error surfaces to the caller. -/
def putHandler (st : ServerState) (key value : String) (o : DbOutcome) :
    PutResp × ServerState :=
  match o with
  | DbOutcome.fail => (PutResp.dbError, st)
  | DbOutcome.ok =>
      (PutResp.ok, { st with db := st.db.put key value,
                             cache := st.cache.put key value })

/-- The `svr.Get` handler: consult the cache; on a hit bump
`cache_hits` and answer from the cache; on a miss bump `cache_misses`,
fall back to `db.get`, and on a DB hit fill the cache (read-through)
before answering; otherwise 404. -/
def getHandler (st : ServerState) (key : String) : GetResp × ServerState :=
  match st.cache.get key with
  | (some v, c1) =>
      (GetResp.cacheHit v,
       { st with cache := c1, cache_hits := st.cache_hits + 1 })
  | (none, c1) =>
      let st1 := { st with cache := c1, cache_misses := st.cache_misses + 1,
                           db_reads := st.db_reads + 1 }
      match st1.db.get key with
      | some v => (GetResp.dbHit v, { st1 with cache := st1.cache.put key v })
      | none => (GetResp.notFound, st1)

/-- The `/stats` handler's rate:
`(total > 0) ? (double(h) * 100.0 / total) : 0.0` with
`total = h + m`, the `double` arithmetic modelled over `ℚ`. -/
def hit_rate (h m : Nat) : ℚ :=
  if 0 < h + m then (h : ℚ) * 100 / ((h : ℚ) + (m : ℚ)) else 0

-- ------------------- Structural invariant --------------------

/-- The coherence invariant the C++ class maintains: the list's keys
are pairwise distinct, the map's key set is exactly the list's key
set (each map entry designates the unique node with its key), and the
size never exceeds the capacity. -/
def Good (c : LRUCache) : Prop :=
  (cacheKeys c).Nodup ∧ c.map.Perm (cacheKeys c) ∧ (cacheKeys c).length ≤ c.cap

instance : DecidablePred Good := fun c => by
  unfold Good
  infer_instance

-- ------------------- List helper lemmas --------------------

/-- Erasing the entry whose key matches commutes with projecting the
keys out. -/
theorem map_fst_eraseP (k : String) (l : List (String × String)) :
    (l.eraseP (fun e => e.1 == k)).map Prod.fst = (l.map Prod.fst).erase k := by
  induction l with
  | nil => rfl
  | cons a l ih =>
      by_cases h : a.1 = k
      · simp [List.eraseP_cons, List.erase_cons, h]
      · simp [List.eraseP_cons, List.erase_cons, h, ih]

/-- The key of the last entry is the last key. -/
theorem getLastD_fst (l : List (String × String)) (d : String × String) :
    (l.getLastD d).1 = (l.map Prod.fst).getLastD d.1 := by
  induction l generalizing d with
  | nil => rfl
  | cons a l ih =>
      rw [List.getLastD_cons, List.map_cons, List.getLastD_cons]
      exact ih a

/-- The defaulted last element of a nonempty list is a member. -/
theorem getLastD_mem {α : Type} (l : List α) (d : α) (h : l ≠ []) :
    l.getLastD d ∈ l := by
  induction l generalizing d with
  | nil => exact absurd rfl h
  | cons a l ih =>
      rw [List.getLastD_cons]
      cases l with
      | nil => simp [List.getLastD]
      | cons b t => exact List.mem_cons_of_mem a (ih a (by simp))

/-- On a duplicate-free nonempty list, erasing the last element drops
exactly the last position. -/
theorem erase_getLastD (l : List String) (d : String) (hne : l ≠ [])
    (hnd : l.Nodup) : l.erase (l.getLastD d) = l.dropLast := by
  rcases List.eq_nil_or_concat l with rfl | ⟨L, b, rfl⟩
  · exact absurd rfl hne
  · rw [List.concat_eq_append] at hnd ⊢
    have hb : b ∉ L := by
      intro hmem
      exact (List.disjoint_of_nodup_append hnd) hmem (by simp)
    rw [List.getLastD_concat, List.erase_append_right [b] hb,
      List.erase_cons_head, List.append_nil, List.dropLast_concat]

/-- `mruOrder` produces pairwise-distinct keys. -/
theorem mruOrder_nodup (l : List String) : (mruOrder l).Nodup := by
  induction l with
  | nil => exact List.nodup_nil
  | cons k rest ih =>
      rw [mruOrder, List.nodup_cons]
      refine ⟨fun hmem => ?_, ih.erase k⟩
      exact ((ih.mem_erase_iff.mp hmem).1) rfl

/-- Membership in `mruOrder` is membership in the access list. -/
theorem mem_mruOrder {k : String} {l : List String} (hk : k ∈ l) :
    k ∈ mruOrder l := by
  induction l with
  | nil => cases hk
  | cons a rest ih =>
      rw [mruOrder]
      rcases List.mem_cons.mp hk with rfl | hk
      · exact List.mem_cons_self _ _
      · by_cases hka : k = a
        · exact hka ▸ List.mem_cons_self _ _
        · exact List.mem_cons_of_mem a
            ((mruOrder_nodup rest).mem_erase_iff.mpr ⟨hka, ih hk⟩)

-- ------------------- Operation characterizations --------------------

/-- `put` never changes the capacity. -/
theorem cap_put (c : LRUCache) (k v : String) : (c.put k v).cap = c.cap := by
  rw [LRUCache.put]
  split
  · rfl
  · dsimp only
    split <;> rfl

/-- `get` never changes the capacity. -/
theorem cap_get (c : LRUCache) (k : String) : ((c.get k).2).cap = c.cap := by
  rw [LRUCache.get]
  split
  · split <;> rfl
  · rfl

/-- `remove` never changes the capacity. -/
theorem cap_remove (c : LRUCache) (k : String) : (c.remove k).cap = c.cap := by
  rw [LRUCache.remove]
  split <;> rfl

/-- `put` on a key the map knows: value updated in place, node moved
to the front, map untouched. -/
theorem cacheKeys_put_mem (c : LRUCache) (k v : String) (hk : k ∈ c.map) :
    cacheKeys (c.put k v) = k :: (cacheKeys c).erase k := by
  simp [LRUCache.put, hk, cacheKeys, map_fst_eraseP]

theorem map_put_mem (c : LRUCache) (k v : String) (hk : k ∈ c.map) :
    (c.put k v).map = c.map := by
  simp [LRUCache.put, hk]

/-- `put` on a fresh key without overflow: plain insertion at the
front of both structures. -/
theorem cacheKeys_put_new (c : LRUCache) (k v : String) (hk : k ∉ c.map)
    (hcap : ¬ c.cap < c.cache.length + 1) :
    cacheKeys (c.put k v) = k :: cacheKeys c := by
  simp only [LRUCache.put, if_neg hk, List.length_cons, gt_iff_lt, if_neg hcap]
  rfl

theorem map_put_new (c : LRUCache) (k v : String) (hk : k ∉ c.map)
    (hcap : ¬ c.cap < c.cache.length + 1) :
    (c.put k v).map = k :: c.map := by
  simp only [LRUCache.put, if_neg hk, List.length_cons, gt_iff_lt, if_neg hcap]

/-- `put` on a fresh key at capacity: insertion at the front followed
by eviction of the back node and erasure of its key. -/
theorem cacheKeys_put_evict (c : LRUCache) (k v : String) (hk : k ∉ c.map)
    (hcap : c.cap < c.cache.length + 1) :
    cacheKeys (c.put k v) = (k :: cacheKeys c).dropLast := by
  simp only [LRUCache.put, if_neg hk, List.length_cons, gt_iff_lt, if_pos hcap]
  rw [cacheKeys, List.map_dropLast]
  rfl

theorem map_put_evict (c : LRUCache) (k v : String) (hk : k ∉ c.map)
    (hcap : c.cap < c.cache.length + 1) :
    (c.put k v).map = (k :: c.map).erase ((cacheKeys c).getLastD k) := by
  simp only [LRUCache.put, if_neg hk, List.length_cons, gt_iff_lt, if_pos hcap]
  rw [getLastD_fst, List.map_cons, List.getLastD_cons]
  rfl

/-- `get` on a key the map does not know returns a miss and leaves
the state untouched. -/
theorem get_not_mem (c : LRUCache) (k : String) (hk : k ∉ c.map) :
    c.get k = (none, c) := by
  simp [LRUCache.get, hk]

/-- `get` on a key the map knows, when the list indeed carries the
key: the hit returns the node's value and splices the node to the
front. -/
theorem get_of_mem (c : LRUCache) (k : String) (hk : k ∈ c.map)
    (hkK : k ∈ cacheKeys c) :
    ∃ v, c.get k =
      (some v, { c with cache := (k, v) :: c.cache.eraseP (fun e => e.1 == k) }) := by
  obtain ⟨e, he, hfst⟩ := List.mem_map.mp hkK
  have hsome : (c.cache.find? (fun e => e.1 == k)).isSome = true :=
    List.find?_isSome.mpr ⟨e, he, by simp [hfst]⟩
  obtain ⟨e0, hf⟩ := Option.isSome_iff_exists.mp hsome
  obtain ⟨a, b⟩ := e0
  have ha : a = k := by simpa using List.find?_some hf
  subst ha
  exact ⟨b, by rw [LRUCache.get, if_pos hk, hf]⟩

/-- Moving the node with key `k` to the front (the `splice` in `get`
and the update branch of `put`) preserves the structural invariant. -/
theorem good_moveFront (c : LRUCache) (k v : String) (hG : Good c)
    (hkK : k ∈ cacheKeys c) :
    Good { c with cache := (k, v) :: c.cache.eraseP (fun e => e.1 == k) } := by
  obtain ⟨hnd, hperm, hlen⟩ := hG
  have hkeys : cacheKeys { c with cache := (k, v) :: c.cache.eraseP (fun e => e.1 == k) }
      = k :: (cacheKeys c).erase k := by
    simp [cacheKeys, map_fst_eraseP]
  rw [Good, hkeys]
  refine ⟨?_, ?_, ?_⟩
  · exact List.nodup_cons.mpr ⟨fun h => ((hnd.mem_erase_iff.mp h).1 rfl), hnd.erase k⟩
  · exact hperm.trans (List.perm_cons_erase hkK)
  · have h1 : ((cacheKeys c).erase k).length = (cacheKeys c).length - 1 :=
      List.length_erase_of_mem hkK
    have h2 : 0 < (cacheKeys c).length :=
      List.length_pos.mpr (List.ne_nil_of_mem hkK)
    simp only [List.length_cons, h1]
    omega

/-- `put` preserves the structural invariant. -/
theorem good_put (c : LRUCache) (k v : String) (hG : Good c) :
    Good (c.put k v) := by
  by_cases hk : k ∈ c.map
  · have hkK : k ∈ cacheKeys c := hG.2.1.mem_iff.mp hk
    rw [LRUCache.put, if_pos hk]
    exact good_moveFront c k v hG hkK
  · obtain ⟨hnd, hperm, hlen⟩ := hG
    have hkK : k ∉ cacheKeys c := fun h => hk (hperm.mem_iff.mpr h)
    by_cases hcap : c.cap < c.cache.length + 1
    · rw [Good, cacheKeys_put_evict c k v hk hcap, map_put_evict c k v hk hcap,
        cap_put]
      by_cases hnil : c.cache = []
      · have hmapnil : c.map = [] :=
          List.perm_nil.mp (by simpa [cacheKeys, hnil] using hperm)
        simp [cacheKeys, hnil, hmapnil, List.getLastD]
      · have hKnil : cacheKeys c ≠ [] := by
          simpa [cacheKeys, List.map_eq_nil_iff] using hnil
        have hndc : (k :: cacheKeys c).Nodup := List.nodup_cons.mpr ⟨hkK, hnd⟩
        have hlast : (k :: cacheKeys c).getLastD k = (cacheKeys c).getLastD k :=
          List.getLastD_cons k k (cacheKeys c)
        have herase : (k :: cacheKeys c).erase ((cacheKeys c).getLastD k)
            = (k :: cacheKeys c).dropLast := by
          rw [← hlast]
          exact erase_getLastD (k :: cacheKeys c) k (by simp) hndc
        refine ⟨?_, ?_, ?_⟩
        · exact (List.dropLast_sublist _).nodup hndc
        · rw [← herase]
          exact (hperm.cons k).erase _
        · simp only [List.length_dropLast, List.length_cons]
          omega
    · rw [Good, cacheKeys_put_new c k v hk hcap, map_put_new c k v hk hcap,
        cap_put]
      have hlenK : (cacheKeys c).length = c.cache.length := by
        rw [cacheKeys, List.length_map]
      refine ⟨List.nodup_cons.mpr ⟨hkK, hnd⟩, hperm.cons k, ?_⟩
      simp only [List.length_cons]
      omega

/-- `get` preserves the structural invariant. -/
theorem good_get (c : LRUCache) (k : String) (hG : Good c) :
    Good (c.get k).2 := by
  by_cases hk : k ∈ c.map
  · have hkK : k ∈ cacheKeys c := hG.2.1.mem_iff.mp hk
    obtain ⟨v, hget⟩ := get_of_mem c k hk hkK
    rw [hget]
    exact good_moveFront c k v hG hkK
  · rw [get_not_mem c k hk]
    exact hG

/-- `remove` preserves the structural invariant. -/
theorem good_remove (c : LRUCache) (k : String) (hG : Good c) :
    Good (c.remove k) := by
  obtain ⟨hnd, hperm, hlen⟩ := hG
  by_cases hk : k ∈ c.map
  · have hkeys : cacheKeys (c.remove k) = (cacheKeys c).erase k := by
      rw [LRUCache.remove, if_pos hk]
      simp [cacheKeys, map_fst_eraseP]
    have hmap : (c.remove k).map = c.map.erase k := by
      rw [LRUCache.remove, if_pos hk]
    rw [Good, hkeys, hmap, cap_remove]
    refine ⟨hnd.erase k, hperm.erase k, ?_⟩
    exact le_trans ((List.erase_sublist k (cacheKeys c)).length_le) hlen
  · rw [LRUCache.remove, if_neg hk]
    exact ⟨hnd, hperm, hlen⟩

/-- The empty cache satisfies the structural invariant. -/
theorem good_empty (capacity : Nat) : Good (LRUCache.empty capacity) :=
  ⟨List.nodup_nil, List.Perm.refl [], Nat.zero_le capacity⟩

/-- Every single operation preserves the structural invariant. -/
theorem good_applyOp (c : LRUCache) (op : Op) (hG : Good c) :
    Good (applyOp c op) := by
  cases op with
  | get k => exact good_get c k hG
  | put k v => exact good_put c k v hG
  | remove k => exact good_remove c k hG

/-- Every sequence of operations preserves the structural invariant. -/
theorem good_applyOps (c : LRUCache) (ops : List Op) (hG : Good c) :
    Good (applyOps c ops) := by
  induction ops generalizing c with
  | nil => exact hG
  | cons op ops ih => exact ih (applyOp c op) (good_applyOp c op hG)

/-- Every single operation preserves the capacity. -/
theorem cap_applyOp (c : LRUCache) (op : Op) : (applyOp c op).cap = c.cap := by
  cases op with
  | get k => exact cap_get c k
  | put k v => exact cap_put c k v
  | remove k => exact cap_remove c k

/-- Every sequence of operations preserves the capacity. -/
theorem cap_applyOps (c : LRUCache) (ops : List Op) :
    (applyOps c ops).cap = c.cap := by
  induction ops generalizing c with
  | nil => rfl
  | cons op ops ih => rw [applyOps, List.foldl_cons, ← applyOps, ih, cap_applyOp]

/-- A `put` sequence is an operation sequence. -/
theorem applyPuts_eq_applyOps (c : LRUCache) (s : List (String × String)) :
    applyPuts c s = applyOps c (s.map (fun kv => Op.put kv.1 kv.2)) := by
  rw [applyPuts, applyOps, List.foldl_map]
  rfl

-- ------------------- LRU contents of a put sequence --------------------

/-- Erasing an element that sits inside the first `n + 1` positions
commutes with truncation: the erased list's first `n` elements. -/
theorem take_erase_of_mem_take :
    ∀ (l : List String) (n : Nat) (k : String), k ∈ l.take (n + 1) →
      (l.take (n + 1)).erase k = (l.erase k).take n := by
  intro l
  induction l with
  | nil => intro n k hk; cases hk
  | cons a l ih =>
      intro n k hk
      rw [List.take_succ_cons] at hk ⊢
      by_cases hka : k = a
      · subst hka
        rw [List.erase_cons_head, List.erase_cons_head]
      · have hkl : k ∈ l.take n := (List.mem_cons.mp hk).resolve_left hka
        have hne : ¬(a == k) = true := by simpa using fun h => hka h.symm
        obtain ⟨m, rfl⟩ : ∃ m, n = m + 1 := by
          cases n with
          | zero => cases hkl
          | succ m => exact ⟨m, rfl⟩
        rw [List.erase_cons_tail hne, List.erase_cons_tail hne,
          List.take_succ_cons]
        rw [ih m k hkl]

/-- Erasing an element that does not sit inside the first `n + 1`
positions leaves the first `n` elements alone. -/
theorem take_erase_of_not_mem_take :
    ∀ (l : List String) (n : Nat) (k : String), k ∉ l.take (n + 1) →
      (l.erase k).take n = l.take n := by
  intro l
  induction l with
  | nil => intro n k _; simp
  | cons a l ih =>
      intro n k hk
      rw [List.take_succ_cons] at hk
      have hka : k ≠ a := fun h => hk (h ▸ List.mem_cons_self _ _)
      have hne : ¬(a == k) = true := by simpa using fun h => hka h.symm
      rw [List.erase_cons_tail hne]
      cases n with
      | zero => rfl
      | succ m =>
          have hkl : k ∉ l.take (m + 1) := fun h => hk (List.mem_cons_of_mem a h)
          rw [List.take_succ_cons, List.take_succ_cons, ih m k hkl]

/-- One `put` step advances the cache contents from the truncated
recency order of the accesses so far to that of the extended access
list. -/
theorem cacheKeys_put_mruOrder (c : LRUCache) (k v : String) (r : List String)
    (hG : Good c) (hkeys : cacheKeys c = (mruOrder r).take c.cap) :
    cacheKeys (c.put k v) = (mruOrder (k :: r)).take c.cap := by
  obtain ⟨hnd, hperm, hlen⟩ := hG
  have hmru : mruOrder (k :: r) = k :: (mruOrder r).erase k := rfl
  by_cases hk : k ∈ c.map
  · -- the key is already cached: move-to-front
    have hkK : k ∈ cacheKeys c := hperm.mem_iff.mp hk
    have hkT : k ∈ (mruOrder r).take c.cap := hkeys ▸ hkK
    obtain ⟨n, hn⟩ : ∃ n, c.cap = n + 1 := by
      cases hcap : c.cap with
      | zero => rw [hcap] at hkT; cases hkT
      | succ n => exact ⟨n, rfl⟩
    rw [cacheKeys_put_mem c k v hk, hkeys, hmru, hn, List.take_succ_cons]
    rw [take_erase_of_mem_take (mruOrder r) n k (hn ▸ hkT)]
  · -- fresh key: insert, possibly evicting the back node
    have hkK : k ∉ cacheKeys c := fun h => hk (hperm.mem_iff.mpr h)
    have hlenc : c.cache.length = (cacheKeys c).length := by
      rw [cacheKeys, List.length_map]
    by_cases hcap : c.cap < c.cache.length + 1
    · -- eviction: the cache was exactly full
      have hfull : (cacheKeys c).length = c.cap := by omega
      cases hn : c.cap with
      | zero =>
          have hKnil : cacheKeys c = [] :=
            List.eq_nil_of_length_eq_zero (by omega)
          rw [cacheKeys_put_evict c k v hk hcap, hKnil, List.take_zero]
          rfl
      | succ n =>
          have hkeys' : cacheKeys c = (mruOrder r).take (n + 1) := by
            rw [← hn]; exact hkeys
          have hkT : k ∉ (mruOrder r).take (n + 1) := hkeys' ▸ hkK
          have hTlen : ((mruOrder r).take (n + 1)).length = n + 1 := by
            rw [← hkeys']; omega
          rw [cacheKeys_put_evict c k v hk hcap, hmru, List.take_succ_cons,
            take_erase_of_not_mem_take (mruOrder r) n k hkT, hkeys',
            List.dropLast_eq_take, List.length_cons, hTlen]
          have h2 : n + 1 + 1 - 1 = n + 1 := by omega
          rw [h2, List.take_succ_cons, List.take_take]
          have h3 : n ⊓ (n + 1) = n := by omega
          rw [h3]
    · -- no eviction: room to spare
      have hroom : (cacheKeys c).length + 1 ≤ c.cap := by omega
      have hMlen : (mruOrder r).length < c.cap := by
        by_contra hge
        push_neg at hge
        have : (cacheKeys c).length = c.cap := by
          rw [hkeys, List.length_take]; omega
        omega
      have hMeq : (mruOrder r).take c.cap = mruOrder r :=
        List.take_of_length_le (by omega)
      have hkM : k ∉ mruOrder r := by
        rw [hkeys, hMeq] at hkK; exact hkK
      rw [cacheKeys_put_new c k v hk hcap, hmru, List.erase_of_not_mem hkM,
        hkeys, hMeq]
      refine (List.take_of_length_le ?_).symm
      rw [List.length_cons]
      omega

/-- Running any `put` sequence from an empty cache yields a good
state of unchanged capacity whose contents are the most-recently-used
distinct keys, truncated at the capacity. -/
theorem applyPuts_cacheKeys (capacity : Nat) (s : List (String × String)) :
    Good (applyPuts (LRUCache.empty capacity) s) ∧
    (applyPuts (LRUCache.empty capacity) s).cap = capacity ∧
    cacheKeys (applyPuts (LRUCache.empty capacity) s)
      = (mruOrder ((s.map Prod.fst).reverse)).take capacity := by
  induction s using List.reverseRecOn with
  | nil =>
      exact ⟨good_empty capacity, rfl,
        by simp [applyPuts, cacheKeys, LRUCache.empty, mruOrder]⟩
  | append_singleton s kv ih =>
      obtain ⟨hG, hcap, hkeys⟩ := ih
      have happ : applyPuts (LRUCache.empty capacity) (s ++ [kv])
          = (applyPuts (LRUCache.empty capacity) s).put kv.1 kv.2 := by
        rw [applyPuts, List.foldl_append]
        rfl
      have hrev : ((s ++ [kv]).map Prod.fst).reverse
          = kv.1 :: (s.map Prod.fst).reverse := by
        simp
      refine ⟨?_, ?_, ?_⟩
      · rw [happ]; exact good_put _ _ _ hG
      · rw [happ, cap_put]; exact hcap
      · rw [happ, hrev]
        have hstep := cacheKeys_put_mruOrder
          (applyPuts (LRUCache.empty capacity) s) kv.1 kv.2
          ((s.map Prod.fst).reverse) hG (by rw [hkeys, hcap])
        rw [hstep, hcap]

-- ------------------- put/get interaction --------------------

/-- Raw cache list after `put` on a known key. -/
theorem cache_put_mem (c : LRUCache) (k v : String) (hk : k ∈ c.map) :
    (c.put k v).cache = (k, v) :: c.cache.eraseP (fun e => e.1 == k) := by
  rw [LRUCache.put, if_pos hk]

/-- Raw cache list after `put` on a fresh key without overflow. -/
theorem cache_put_new (c : LRUCache) (k v : String) (hk : k ∉ c.map)
    (hcap : ¬ c.cap < c.cache.length + 1) :
    (c.put k v).cache = (k, v) :: c.cache := by
  simp only [LRUCache.put, if_neg hk, List.length_cons, gt_iff_lt, if_neg hcap]

/-- Raw cache list after `put` on a fresh key at capacity. -/
theorem cache_put_evict (c : LRUCache) (k v : String) (hk : k ∉ c.map)
    (hcap : c.cap < c.cache.length + 1) :
    (c.put k v).cache = ((k, v) :: c.cache).dropLast := by
  simp only [LRUCache.put, if_neg hk, List.length_cons, gt_iff_lt, if_pos hcap]

/-- `get` on a cache whose most-recently-used node carries the key:
a hit on the head node, which the splice leaves in place. -/
theorem get_head (c : LRUCache) (k v : String) (t : List (String × String))
    (hk : k ∈ c.map) (hc : c.cache = (k, v) :: t) :
    c.get k = (some v, { c with cache := (k, v) :: t }) := by
  rw [LRUCache.get, if_pos hk, hc, List.find?_cons_of_pos _ (by simp),
    List.eraseP_cons_of_pos (by simp)]

/-- `put(k, v)` immediately followed by `get(k)` hits and returns `v`
whenever the capacity is positive and the map agrees with the list. -/
theorem put_get_self (c : LRUCache) (k v : String) (hcap : 0 < c.cap)
    (hperm : c.map.Perm (cacheKeys c)) :
    ∃ c2, (c.put k v).get k = (some v, c2) := by
  by_cases hk : k ∈ c.map
  · exact ⟨_, get_head (c.put k v) k v _
      (by rw [map_put_mem c k v hk]; exact hk) (cache_put_mem c k v hk)⟩
  · have hkK : k ∉ cacheKeys c := fun h => hk (hperm.mem_iff.mpr h)
    by_cases hcap2 : c.cap < c.cache.length + 1
    · -- eviction path: the cache was nonempty because cap ≥ 1
      have hnil : c.cache ≠ [] := by
        intro h
        rw [h] at hcap2
        simp only [List.length_nil] at hcap2
        omega
      have hKnil : cacheKeys c ≠ [] := by
        simpa [cacheKeys, List.map_eq_nil_iff] using hnil
      have hlastmem : (cacheKeys c).getLastD k ∈ cacheKeys c :=
        getLastD_mem _ k hKnil
      have hlk : ¬(k == (cacheKeys c).getLastD k) = true := by
        simp only [beq_iff_eq]
        intro h
        exact hkK (h ▸ hlastmem)
      have hmem : k ∈ (c.put k v).map := by
        rw [map_put_evict c k v hk hcap2, List.erase_cons_tail hlk]
        exact List.mem_cons_self _ _
      obtain ⟨t, e, hte⟩ := (List.eq_nil_or_concat c.cache).resolve_left hnil
      have hcache : (c.put k v).cache = (k, v) :: t := by
        rw [cache_put_evict c k v hk hcap2, hte, List.concat_eq_append,
          ← List.cons_append, List.dropLast_concat]
      exact ⟨_, get_head (c.put k v) k v t hmem hcache⟩
    · have hmem : k ∈ (c.put k v).map := by
        rw [map_put_new c k v hk hcap2]
        exact List.mem_cons_self _ _
      exact ⟨_, get_head (c.put k v) k v c.cache hmem
        (cache_put_new c k v hk hcap2)⟩

-- ------------------- GET handler equations --------------------

/-- The GET handler on a cache hit. -/
theorem getHandler_hit (st : ServerState) (k v : String) (c2 : LRUCache)
    (h : st.cache.get k = (some v, c2)) :
    getHandler st k = (GetResp.cacheHit v,
      { st with cache := c2, cache_hits := st.cache_hits + 1 }) := by
  rw [getHandler, h]

/-- The GET handler on a cache miss that the backing store answers:
read-through fill. -/
theorem getHandler_miss_found (st : ServerState) (k v : String) (c1 : LRUCache)
    (hget : st.cache.get k = (none, c1)) (hdb : st.db.get k = some v) :
    getHandler st k = (GetResp.dbHit v,
      { st with cache := c1.put k v, cache_misses := st.cache_misses + 1,
                db_reads := st.db_reads + 1 }) := by
  rw [getHandler, hget]
  dsimp only
  rw [hdb]

/-- The GET handler on a miss of both the cache and the backing
store: 404, cache untouched beyond the miss bookkeeping. -/
theorem getHandler_miss_notFound (st : ServerState) (k : String) (c1 : LRUCache)
    (hget : st.cache.get k = (none, c1)) (hdb : st.db.get k = none) :
    getHandler st k = (GetResp.notFound,
      { st with cache := c1, cache_misses := st.cache_misses + 1,
                db_reads := st.db_reads + 1 }) := by
  rw [getHandler, hget]
  dsimp only
  rw [hdb]

-- ------------------- Claims --------------------

/-- Claim C1: write-through is store-first and atomic on failure.
`write(k,v)` persists to the backing store before touching the cache:
on success both the table and the cache are updated; if the
backing-store `put` fails, the whole server state — in particular the
cache — is exactly unchanged (so a key absent before is still absent:
no phantom entry), and the error is surfaced to the caller. -/
theorem claim_C1 (st : ServerState) (k v : String) :
    (putHandler st k v DbOutcome.fail).1 = PutResp.dbError ∧
    (putHandler st k v DbOutcome.fail).2 = st ∧
    (k ∉ cacheKeys st.cache →
      k ∉ cacheKeys (putHandler st k v DbOutcome.fail).2.cache) ∧
    (putHandler st k v DbOutcome.ok).2.db = st.db.put k v ∧
    (putHandler st k v DbOutcome.ok).2.cache = st.cache.put k v :=
  ⟨rfl, rfl, fun h => h, rfl, rfl⟩

/-- Witness for C1 at a concrete state: the failed write leaves the
start-up state untouched and the key uncached. -/
theorem claim_C1_witness :
    "k" ∉ cacheKeys ServerState.init.cache ∧
    (putHandler ServerState.init "k" "v" DbOutcome.fail).2 = ServerState.init ∧
    "k" ∉ cacheKeys (putHandler ServerState.init "k" "v" DbOutcome.fail).2.cache :=
  ⟨by decide, (claim_C1 ServerState.init "k" "v").2.1,
    (claim_C1 ServerState.init "k" "v").2.2.1 (by decide)⟩

/-- Claim C2: any `put` sequence touching more distinct keys than the
capacity leaves the cache holding exactly the `cap` most-recently-used
distinct keys.  `mruOrder ((s.map Prod.fst).reverse)` lists the
distinct keys of the sequence ordered by most recent use first, so
its `cap`-prefix is the set the claim describes, in LRU order. -/
theorem claim_C2 (capacity : Nat) (s : List (String × String))
    (hdist : capacity < (mruOrder ((s.map Prod.fst).reverse)).length) :
    cacheKeys (applyPuts (LRUCache.empty capacity) s)
      = (mruOrder ((s.map Prod.fst).reverse)).take capacity ∧
    (cacheKeys (applyPuts (LRUCache.empty capacity) s)).length = capacity := by
  obtain ⟨-, -, hkeys⟩ := applyPuts_cacheKeys capacity s
  refine ⟨hkeys, ?_⟩
  rw [hkeys, List.length_take]
  omega

/-- Witness for C2: capacity 1, two distinct keys; only the newest
survives. -/
theorem claim_C2_witness :
    1 < (mruOrder (([("a", "1"), ("b", "2")].map Prod.fst).reverse)).length ∧
    cacheKeys (applyPuts (LRUCache.empty 1) [("a", "1"), ("b", "2")])
      = (mruOrder (([("a", "1"), ("b", "2")].map Prod.fst).reverse)).take 1 ∧
    (cacheKeys (applyPuts (LRUCache.empty 1) [("a", "1"), ("b", "2")])).length
      = 1 :=
  ⟨by decide, (claim_C2 1 [("a", "1"), ("b", "2")] (by decide)).1,
    (claim_C2 1 [("a", "1"), ("b", "2")] (by decide)).2⟩

/-- Claim C3: after every sequence of get/put/remove operations on a
cache of capacity `cap`, the stored keys are pairwise distinct and
the entry count never exceeds `cap`.  (Quantifying over all sequences
covers every intermediate prefix as well.) -/
theorem claim_C3 (capacity : Nat) (ops : List Op) :
    (cacheKeys (applyOps (LRUCache.empty capacity) ops)).Nodup ∧
    (cacheKeys (applyOps (LRUCache.empty capacity) ops)).length ≤ capacity := by
  have hG := good_applyOps (LRUCache.empty capacity) ops (good_empty capacity)
  have hcap : (applyOps (LRUCache.empty capacity) ops).cap = capacity :=
    (cap_applyOps (LRUCache.empty capacity) ops).trans rfl
  exact ⟨hG.1, le_trans hG.2.2 (le_of_eq hcap)⟩

/-- Claim C9: index/order coherence.  After every operation sequence
the lookup map's key set is exactly the key set of the recency list,
the map holds one entry per key, and keys in the list are unique, so
each map entry designates the unique node carrying its key. -/
theorem claim_C9 (capacity : Nat) (ops : List Op) :
    (∀ k, k ∈ (applyOps (LRUCache.empty capacity) ops).map ↔
       k ∈ cacheKeys (applyOps (LRUCache.empty capacity) ops)) ∧
    ((applyOps (LRUCache.empty capacity) ops).map).Nodup ∧
    (cacheKeys (applyOps (LRUCache.empty capacity) ops)).Nodup := by
  have hG := good_applyOps (LRUCache.empty capacity) ops (good_empty capacity)
  exact ⟨fun k => hG.2.1.mem_iff, hG.2.1.nodup_iff.mpr hG.1, hG.1⟩

/-- Claim C6: the concrete trace at capacity 2.
`put(a,1); put(b,2); put(c,3)` evicts `a`; `get(b)` hits with `2` and
refreshes `b`; `put(d,4)` then evicts `c`, leaving `{b, d}`. -/
theorem claim_C6 :
    cacheKeys ((((LRUCache.empty 2).put "a" "1").put "b" "2").put "c" "3")
      = ["c", "b"] ∧
    "a" ∉ cacheKeys ((((LRUCache.empty 2).put "a" "1").put "b" "2").put "c" "3") ∧
    (((((LRUCache.empty 2).put "a" "1").put "b" "2").put "c" "3").get "b").1
      = some "2" ∧
    cacheKeys ((((((LRUCache.empty 2).put "a" "1").put "b" "2").put "c"
        "3").get "b").2.put "d" "4") = ["d", "b"] ∧
    "c" ∉ cacheKeys ((((((LRUCache.empty 2).put "a" "1").put "b" "2").put "c"
        "3").get "b").2.put "d" "4") := by
  decide

/-- Claim C8: `get` on a key absent from the cache misses and leaves
the state — entries, values and recency order — exactly unchanged. -/
theorem claim_C8 (c : LRUCache) (k : String)
    (hperm : c.map.Perm (cacheKeys c)) (habs : k ∉ cacheKeys c) :
    c.get k = (none, c) :=
  get_not_mem c k (fun h => habs (hperm.mem_iff.mp h))

/-- Witness for C8 at a concrete cache holding only key `a`. -/
theorem claim_C8_witness :
    "b" ∉ cacheKeys ((LRUCache.empty 2).put "a" "1") ∧
    ((LRUCache.empty 2).put "a" "1").get "b"
      = (none, (LRUCache.empty 2).put "a" "1") :=
  ⟨by decide, claim_C8 ((LRUCache.empty 2).put "a" "1") "b" (by decide) (by decide)⟩

/-- Claim C10: a capacity-0 cache inserts and then immediately evicts
the new entry, so after `put(k,v)` it is empty again and `get(k)`
misses. -/
theorem claim_C10 (k v : String) :
    (LRUCache.empty 0).put k v = LRUCache.empty 0 ∧
    (((LRUCache.empty 0).put k v).get k).1 = none := by
  have h : (LRUCache.empty 0).put k v = LRUCache.empty 0 := by
    simp [LRUCache.put, LRUCache.empty, List.getLastD]
  refine ⟨h, ?_⟩
  rw [h]
  simp [LRUCache.get, LRUCache.empty]

/-- Claim C7: put/get round-trip at the service level.  After a
successful `write(k,v)`, `read(k)` answers `CACHE HIT: v`, increments
the hit counter, and performs no backing-store access (the ghost
`db_reads` counter is untouched).  Requires a positive capacity (the
server uses 1000) and the map/list coherence the cache maintains. -/
theorem claim_C7 (st : ServerState) (k v : String)
    (hcap : 0 < st.cache.cap)
    (hperm : st.cache.map.Perm (cacheKeys st.cache)) :
    (getHandler (putHandler st k v DbOutcome.ok).2 k).1 = GetResp.cacheHit v ∧
    (getHandler (putHandler st k v DbOutcome.ok).2 k).2.cache_hits
      = (putHandler st k v DbOutcome.ok).2.cache_hits + 1 ∧
    (getHandler (putHandler st k v DbOutcome.ok).2 k).2.db_reads
      = (putHandler st k v DbOutcome.ok).2.db_reads := by
  obtain ⟨c2, hget⟩ := put_get_self st.cache k v hcap hperm
  have hg : (putHandler st k v DbOutcome.ok).2.cache.get k = (some v, c2) := hget
  rw [getHandler_hit (putHandler st k v DbOutcome.ok).2 k v c2 hg]
  exact ⟨rfl, rfl, rfl⟩

/-- Witness for C7 from the server's start-up state. -/
theorem claim_C7_witness :
    0 < ServerState.init.cache.cap ∧
    (getHandler (putHandler ServerState.init "k" "v" DbOutcome.ok).2 "k").1
      = GetResp.cacheHit "v" :=
  ⟨by decide, (claim_C7 ServerState.init "k" "v" (by decide) (by decide)).1⟩

/-- Claim C4: read-through fill.  If the cache lacks `k` while the
backing store answers `v`, `read(k)` returns `v` as a DB hit, bumps
only the miss counter, leaves the cache holding `k → v`, and a second
`read(k)` is then a cache hit that bumps the hit counter. -/
theorem claim_C4 (st : ServerState) (k v : String)
    (hcap : 0 < st.cache.cap)
    (hperm : st.cache.map.Perm (cacheKeys st.cache))
    (habs : k ∉ cacheKeys st.cache)
    (hdb : st.db.get k = some v) :
    (getHandler st k).1 = GetResp.dbHit v ∧
    (getHandler st k).2.cache_misses = st.cache_misses + 1 ∧
    (getHandler st k).2.cache_hits = st.cache_hits ∧
    ((getHandler st k).2.cache.get k).1 = some v ∧
    (getHandler (getHandler st k).2 k).1 = GetResp.cacheHit v ∧
    (getHandler (getHandler st k).2 k).2.cache_hits
      = (getHandler st k).2.cache_hits + 1 := by
  have hmiss : st.cache.get k = (none, st.cache) :=
    get_not_mem st.cache k (fun h => habs (hperm.mem_iff.mp h))
  have h1 := getHandler_miss_found st k v st.cache hmiss hdb
  obtain ⟨c2, hfill⟩ := put_get_self st.cache k v hcap hperm
  have hcache : (getHandler st k).2.cache = st.cache.put k v := by rw [h1]
  refine ⟨by rw [h1], by rw [h1], by rw [h1], ?_, ?_, ?_⟩
  · rw [hcache, hfill]
  · rw [getHandler_hit (getHandler st k).2 k v c2 (by rw [hcache, hfill])]
  · rw [getHandler_hit (getHandler st k).2 k v c2 (by rw [hcache, hfill])]

/-- Witness for C4: start-up cache, table holding `k → v`. -/
theorem claim_C4_witness :
    ("k" ∉ cacheKeys ({ ServerState.init with db := [("k", "v")] }).cache) ∧
    ({ ServerState.init with db := [("k", "v")] }).db.get "k" = some "v" ∧
    (getHandler { ServerState.init with db := [("k", "v")] } "k").1
      = GetResp.dbHit "v" ∧
    (getHandler (getHandler { ServerState.init with db := [("k", "v")] } "k").2
      "k").1 = GetResp.cacheHit "v" :=
  ⟨by decide, by decide,
    (claim_C4 { ServerState.init with db := [("k", "v")] } "k" "v"
      (by decide) (by decide) (by decide) (by decide)).1,
    (claim_C4 { ServerState.init with db := [("k", "v")] } "k" "v"
      (by decide) (by decide) (by decide) (by decide)).2.2.2.2.1⟩

/-- Claim C5: the `/stats` hit rate is `100 * hits / (hits + misses)`
when at least one read happened and `0` otherwise; in particular it
is `0` with no traffic, `100` with only hits, and `50` at one hit and
one miss (`double` arithmetic modelled exactly over `ℚ`). -/
theorem claim_C5 (h m : Nat) :
    (0 < h + m → hit_rate h m = 100 * (h : ℚ) / ((h : ℚ) + (m : ℚ))) ∧
    (¬ 0 < h + m → hit_rate h m = 0) ∧
    hit_rate 0 0 = 0 ∧
    (0 < h → hit_rate h 0 = 100) ∧
    hit_rate 1 1 = 50 := by
  refine ⟨?_, ?_, ?_, ?_, ?_⟩
  · intro hpos
    rw [hit_rate, if_pos hpos]
    ring
  · intro hneg
    rw [hit_rate, if_neg hneg]
  · norm_num [hit_rate]
  · intro hpos
    rw [hit_rate, if_pos (by omega)]
    have hne : (h : ℚ) ≠ 0 := Nat.cast_ne_zero.mpr (by omega)
    field_simp
  · norm_num [hit_rate]

/-- Witness for C5: 3 hits and 1 miss give 75%; 2 hits and no miss
give 100%. -/
theorem claim_C5_witness :
    (0 < 3 + 1 ∧ hit_rate 3 1 = 100 * ((3 : Nat) : ℚ)
      / (((3 : Nat) : ℚ) + ((1 : Nat) : ℚ))) ∧
    (0 < 2 ∧ hit_rate 2 0 = 100) :=
  ⟨⟨by norm_num, (claim_C5 3 1).1 (by norm_num)⟩,
    ⟨by norm_num, (claim_C5 2 0).2.2.2.1 (by norm_num)⟩⟩
